import Mathlib

/-!
Formal model of the rustdoc-text rendering pipeline.

The development shallowly embeds the rendering core of the rustdoc-text
crate (src/lib.rs and src/main.rs): the whitespace normalizer
clean_markdown, the HTML tree walk extract_text_from_node, the line
cleanup in html_to_text, the content-root selection in
process_html_content, and the Config builder.  Rust strings are modelled
as List Char; the parsed HTML document is modelled as an inductive tree
mirroring the node kinds of the scraper crate.
-/

/-- Two's-complement wrap of an integer into the signed 32-bit range,
the release-build semantics of Rust i32 addition on overflow. -/
def wrap32 (n : Int) : Int :=
  (n + 2 ^ 31) % 2 ^ 32 - 2 ^ 31

/-- Loop body of clean_markdown (src/lib.rs lines 225-243), with the two
mutable state variables last_was_newline and newline_count made explicit
arguments and the result string built by recursion instead of pushes.
The source's newline_count has inferred type i32; it is modelled as an
integer wrapped into the signed 32-bit range at each increment, the
release-build overflow semantics (a debug build panics at the same
point).  On a newline the count is incremented with wrapping and the
character is emitted only while the count stays at most 2; on any other
character the count is reset whenever the previous character was a
newline, and the character is emitted unconditionally. -/
def cleanMarkdownGo (last_was_newline : Bool) (newline_count : Int) : List Char → List Char
  | [] => []
  | c :: cs =>
    if c = '\n' then
      (if wrap32 (newline_count + 1) ≤ 2 then [c] else [])
        ++ cleanMarkdownGo true (wrap32 (newline_count + 1)) cs
    else
      c :: cleanMarkdownGo false (if last_was_newline then 0 else newline_count) cs

/-- Embedding of clean_markdown (src/lib.rs lines 223-246): the loop is
started with last_was_newline = false and newline_count = 0. -/
def clean_markdown (markdown : List Char) : List Char :=
  cleanMarkdownGo false 0 markdown

/-- Specification-side normalizer, written from the words of the spec:
each maximal run of n consecutive newlines is replaced by exactly
min n 2 newlines, and every non-newline character is kept verbatim and
in order. -/
def collapseRuns : List Char → List Char
  | [] => []
  | c :: cs =>
    if c = '\n' then
      List.replicate (min (1 + (cs.takeWhile (fun d => d = '\n')).length) 2) '\n'
        ++ collapseRuns (cs.dropWhile (fun d => d = '\n'))
    else
      c :: collapseRuns cs
termination_by l => l.length
decreasing_by
  · have h : (cs.dropWhile (fun d => decide (d = '\n'))).length ≤ cs.length :=
      List.Sublist.length_le (List.dropWhile_sublist _)
    simp only [List.length_cons]
    omega
  · simp only [List.length_cons]
    omega

/-- Length of the longest run of consecutive newlines in a string; the
32-bit counter of clean_markdown never overflows exactly when this stays
below 2 to the 31st. -/
def maxNlRun : List Char → Nat
  | [] => 0
  | c :: cs =>
    if c = '\n' then
      max (1 + (cs.takeWhile (fun d => d = '\n')).length)
        (maxNlRun (cs.dropWhile (fun d => d = '\n')))
    else
      maxNlRun cs
termination_by l => l.length
decreasing_by
  · have h : (cs.dropWhile (fun d => decide (d = '\n'))).length ≤ cs.length :=
      List.Sublist.length_le (List.dropWhile_sublist _)
    simp only [List.length_cons]
    omega
  · simp only [List.length_cons]
    omega

/-- Decidable check that a character list contains no run of three or
more consecutive newlines. -/
def noTripleNl : List Char → Bool
  | c1 :: c2 :: c3 :: rest =>
    if c1 = '\n' ∧ c2 = '\n' ∧ c3 = '\n' then false
    else noTripleNl (c2 :: c3 :: rest)
  | _ => true

/-- Decidable check that a character list contains no two consecutive
newlines. -/
def noDoubleNl : List Char → Bool
  | c1 :: c2 :: rest =>
    if c1 = '\n' ∧ c2 = '\n' then false
    else noDoubleNl (c2 :: rest)
  | _ => true

/-- Parsed HTML tree, mirroring the node kinds of the scraper crate
(Text, Element, Comment, Doctype, ProcessingInstruction, Document,
Fragment).  Of an element's attributes only the id attribute is kept,
because the only selector the program uses is the id selector
"#main-content"; the payloads of comments, doctypes and processing
instructions are dropped because no code path reads them. -/
inductive Node where
  | text (s : List Char) : Node
  | element (tag : String) (id : Option String) (children : List Node) : Node
  | comment (s : List Char) : Node
  | doctype : Node
  | procInstr : Node
  | document (children : List Node) : Node
  | fragment (children : List Node) : Node

/-- Children of a node, as the tree edges that scraper's
node.children() iterates over. -/
def childNodes : Node → List Node
  | .element _ _ cs => cs
  | .document cs => cs
  | .fragment cs => cs
  | _ => []

/-- Fixed block element set of src/main.rs line 204. -/
def block_elements : List String :=
  ["div", "p", "h1", "h2", "h3", "h4", "h5", "h6", "pre", "blockquote", "li"]

mutual

/-- Embedding of extract_text_from_node (src/main.rs lines 191-221).
The mutable output string becomes an accumulator argument: a text node
appends its text and a newline; a script or style element is skipped
entirely; a block element appends a newline, the children, and a
trailing newline; any other element appends just its children; every
other node kind leaves the output untouched (the catchall arm of the
Rust match does not recurse). -/
def extract_text_from_node (node : Node) (output : List Char) : List Char :=
  match node with
  | .text t => (output ++ t) ++ ['\n']
  | .element tag _ children =>
    if tag = "script" ∨ tag = "style" then output
    else
      let output1 := if block_elements.contains tag then output ++ ['\n'] else output
      let output2 := extractTextFromChildren children output1
      if block_elements.contains tag then output2 ++ ['\n'] else output2
  | _ => output

/-- The child loop of extract_text_from_node, processing children in
document order and threading the output accumulator left to right. -/
def extractTextFromChildren (ns : List Node) (output : List Char) : List Char :=
  match ns with
  | [] => output
  | n :: ns => extractTextFromChildren ns (extract_text_from_node n output)

end

mutual

/-- Reference renderer from the words of the spec (claim C4): a pure
recursive definition returning the emitted text instead of threading an
accumulator. -/
def renderSpec : Node → List Char
  | .text t => t ++ ['\n']
  | .element tag _ cs =>
    if tag = "script" ∨ tag = "style" then []
    else if block_elements.contains tag then '\n' :: (renderSpecChildren cs ++ ['\n'])
    else renderSpecChildren cs
  | _ => []

/-- Concatenation of the reference renderings of a list of nodes in
document order. -/
def renderSpecChildren : List Node → List Char
  | [] => []
  | n :: ns => renderSpec n ++ renderSpecChildren ns

end

mutual

/-- Replace the children of every script or style element, at any
depth, by the empty list.  Rendering is invariant under this pruning,
which is the formal content of the skip-set enforcement claim. -/
def pruneSkip : Node → Node
  | .text t => .text t
  | .element tag i cs =>
    if tag = "script" ∨ tag = "style" then .element tag i []
    else .element tag i (pruneSkipChildren cs)
  | .comment s => .comment s
  | .doctype => .doctype
  | .procInstr => .procInstr
  | .document cs => .document (pruneSkipChildren cs)
  | .fragment cs => .fragment (pruneSkipChildren cs)

/-- Pointwise pruning of a list of nodes. -/
def pruneSkipChildren : List Node → List Node
  | [] => []
  | n :: ns => pruneSkip n :: pruneSkipChildren ns

end

/-- Whether a node is matched by the CSS selector "#main-content" of
process_html_content: an element whose id attribute is main-content. -/
def isMainContent : Node → Bool
  | .element _ i _ => i = some "main-content"
  | _ => false

mutual

/-- Lazy first match of the selector in document order, the model of
document.select(selector).next() in process_html_content. -/
def selectFirst : Node → Option Node
  | .element tag i cs =>
    if isMainContent (.element tag i cs) then some (.element tag i cs)
    else selectFirstChildren cs
  | .document cs => selectFirstChildren cs
  | .fragment cs => selectFirstChildren cs
  | _ => none

/-- First selector match inside a list of nodes, left to right. -/
def selectFirstChildren : List Node → Option Node
  | [] => none
  | n :: ns =>
    match selectFirst n with
    | some r => some r
    | none => selectFirstChildren ns

end

mutual

/-- All nodes of a tree in document order (depth first, left to
right); the specification-side description of the iteration order of
document.select. -/
def preorder : Node → List Node
  | .element tag i cs => .element tag i cs :: preorderChildren cs
  | .document cs => .document cs :: preorderChildren cs
  | .fragment cs => .fragment cs :: preorderChildren cs
  | n => [n]

/-- Concatenated document-order traversals of a list of nodes. -/
def preorderChildren : List Node → List Node
  | [] => []
  | n :: ns => preorder n ++ preorderChildren ns

end

mutual

/-- Tree-level model of the script removal loop of process_html_content
(src/main.rs lines 157-163): the Rust code deletes the serialized HTML
of every script element from the extracted markup string; on the tree
this removes every script element together with its subtree. -/
def removeScriptNodes : List Node → List Node
  | [] => []
  | n :: ns => removeScriptKeep n ++ removeScriptNodes ns

/-- Either the node with scripts removed below it, or nothing when the
node itself is a script element. -/
def removeScriptKeep : Node → List Node
  | .element tag i cs =>
    if tag = "script" then []
    else [.element tag i (removeScriptNodes cs)]
  | n => [n]

end

/-- Split a character list at every newline; the list of separated
parts, one more than the number of newlines. -/
def splitNl : List Char → List (List Char)
  | [] => [[]]
  | c :: cs =>
    if c = '\n' then [] :: splitNl cs
    else
      match splitNl cs with
      | [] => [[c]]
      | l :: ls => (c :: l) :: ls

/-- Remove one trailing carriage return, as Rust line splitting does for
lines ending in a carriage return and newline pair. -/
def dropTrailingCr (l : List Char) : List Char :=
  if l.getLast? = some '\r' then l.dropLast else l

/-- Strip trailing carriage returns from every part except the last,
which was not newline-terminated. -/
def mapDropCrButLast : List (List Char) → List (List Char)
  | [] => []
  | [l] => [l]
  | l :: ls => dropTrailingCr l :: mapDropCrButLast ls

/-- Model of the lines iterator of Rust strings: split at newlines, do
not report a final empty part after a trailing newline, and strip one
carriage return from each newline-terminated part. -/
def rustLines (s : List Char) : List (List Char) :=
  let parts := splitNl s
  if parts.getLast? = some [] then (parts.dropLast).map dropTrailingCr
  else mapDropCrButLast parts

/-- Code points of the Unicode White_Space property, the set used by
Rust char whitespace classification. -/
def rustWhitespaceCodes : List Nat :=
  [0x09, 0x0A, 0x0B, 0x0C, 0x0D, 0x20, 0x85, 0xA0, 0x1680,
   0x2000, 0x2001, 0x2002, 0x2003, 0x2004, 0x2005, 0x2006, 0x2007,
   0x2008, 0x2009, 0x200A, 0x2028, 0x2029, 0x202F, 0x205F, 0x3000]

/-- Whitespace test matching the Rust char whitespace classification. -/
def rustIsWhitespace (c : Char) : Bool :=
  rustWhitespaceCodes.contains c.toNat

/-- Remove leading whitespace. -/
def trimStart (l : List Char) : List Char :=
  l.dropWhile rustIsWhitespace

/-- Remove trailing whitespace. -/
def trimEnd (l : List Char) : List Char :=
  (l.reverse.dropWhile rustIsWhitespace).reverse

/-- Model of Rust str trim: leading and trailing whitespace removed. -/
def rustTrim (l : List Char) : List Char :=
  trimEnd (trimStart l)

/-- Model of joining a vector of lines with a single newline between
consecutive lines. -/
def joinLines : List (List Char) → List Char
  | [] => []
  | [l] => l
  | l :: ls => l ++ '\n' :: joinLines ls

/-- The line cleanup chain of html_to_text (src/main.rs lines 180-185):
split into lines, trim each line, drop lines that became empty, rejoin
with single newlines. -/
def cleanupLines (plain_text : List Char) : List Char :=
  joinLines (((rustLines plain_text).map rustTrim).filter (fun l => !l.isEmpty))

/-- Embedding of html_to_text (src/main.rs lines 172-188).  The Rust
function receives an HTML string, parses it and walks its root element;
the embedding receives the parsed root element directly.  The function
returns a result type but its error branch is unreachable: the body
always produces a success value. -/
def html_to_text (root : Node) : Except String (List Char) :=
  let plain_text := extract_text_from_node root []
  Except.ok (cleanupLines plain_text)

/-- Embedding of process_html_content (src/main.rs lines 144-169):
select the first node matching "#main-content" in document order,
failing when there is none; remove script elements from the extracted
content; convert the content to plain text.  Serializing the selected
node's children and re-parsing the resulting fragment is modelled by
wrapping the children in the html, head and body elements that document
parsing introduces around a fragment. -/
def process_html_content (doc : Node) : Except String (List Char) :=
  match selectFirst doc with
  | none => Except.error "Could not find main content section"
  | some main_content =>
    html_to_text (.element "html" none
      [.element "head" none [],
       .element "body" none (removeScriptNodes (childNodes main_content))])

/-- The composed extract, render and normalize pipeline of the spec:
content extraction and text rendering as in src/main.rs, followed by
the whitespace normalizer clean_markdown of src/lib.rs. -/
def render_pipeline (doc : Node) : Except String (List Char) :=
  Except.map clean_markdown (process_html_content doc)

/-- Configuration structure of src/lib.rs lines 249-258. -/
structure Config where
  crate_name : String
  item_path : Option String
  online : Bool

/-- Embedding of Config::new (src/lib.rs lines 276-282). -/
def Config.new (crate_name : String) : Config :=
  ⟨crate_name, none, false⟩

/-- Embedding of Config::with_item_path (src/lib.rs lines 298-301). -/
def Config.with_item_path (c : Config) (item_path : String) : Config :=
  ⟨c.crate_name, some item_path, c.online⟩

/-- Embedding of Config::with_online (src/lib.rs lines 317-320). -/
def Config.with_online (c : Config) (online : Bool) : Config :=
  ⟨c.crate_name, c.item_path, online⟩

/-- The end-to-end scenario document of claim C8, the parse tree of the
markup div with id main-content holding an h1 Title and a p Hello,
wrapped in the html, head and body elements that document parsing
introduces. -/
def exampleDoc : Node :=
  .document
    [.element "html" none
      [.element "head" none [],
       .element "body" none
         [.element "div" (some "main-content")
           [.element "h1" none [.text "Title".toList],
            .element "p" none [.text "Hello".toList]]]]]

theorem wrap32_eq_self (n : Int) (h1 : -(2 ^ 31) ≤ n) (h2 : n ≤ 2 ^ 31 - 1) :
    wrap32 n = n := by
  unfold wrap32
  rw [Int.emod_eq_of_lt (by omega) (by omega)]
  omega

theorem cleanGo_reset (cnt : Int) (rest : List Char) (h : rest.head? ≠ some '\n') :
    cleanMarkdownGo true cnt rest = cleanMarkdownGo false 0 rest := by
  cases rest with
  | nil => rfl
  | cons c cs =>
    have hc : ¬ c = '\n' := by simpa using h
    simp [cleanMarkdownGo, hc]

theorem cleanGo_run (j : Nat) : ∀ (cnt : Nat) (rest : List Char), cnt + j ≤ 2 ^ 31 - 1 →
    cleanMarkdownGo true (cnt : Int) (List.replicate j '\n' ++ rest)
      = List.replicate (min (cnt + j) 2 - min cnt 2) '\n'
        ++ cleanMarkdownGo true ((cnt + j : Nat) : Int) rest := by
  induction j with
  | zero => intro cnt rest _; simp
  | succ j ih =>
    intro cnt rest hb
    rw [List.replicate_succ, List.cons_append]
    have hw : wrap32 ((cnt : Int) + 1) = ((cnt + 1 : Nat) : Int) := by
      have h2 : wrap32 ((cnt : Int) + 1) = (cnt : Int) + 1 :=
        wrap32_eq_self _ (by omega) (by omega)
      rw [h2]
      push_cast
      ring
    have h1 : cleanMarkdownGo true (cnt : Int) ('\n' :: (List.replicate j '\n' ++ rest))
        = (if wrap32 ((cnt : Int) + 1) ≤ 2 then ['\n'] else [])
          ++ cleanMarkdownGo true (wrap32 ((cnt : Int) + 1)) (List.replicate j '\n' ++ rest) := by
      simp [cleanMarkdownGo]
    rw [h1, hw, ih (cnt + 1) rest (by omega)]
    have harg : cnt + 1 + j = cnt + (j + 1) := by omega
    rw [harg]
    have hcond : (((cnt + 1 : Nat) : Int) ≤ 2) ↔ (cnt + 1 ≤ 2) := by omega
    by_cases hc : cnt + 1 ≤ 2
    · rw [if_pos (hcond.mpr hc)]
      have hk : min (cnt + (j + 1)) 2 - min cnt 2
          = (min (cnt + (j + 1)) 2 - min (cnt + 1) 2) + 1 := by omega
      rw [hk, List.replicate_succ]
      simp
    · rw [if_neg (fun hcc => hc (hcond.mp hcc))]
      have hk : min (cnt + (j + 1)) 2 - min cnt 2
          = min (cnt + (j + 1)) 2 - min (cnt + 1) 2 := by omega
      rw [hk]
      simp

theorem cleanGo_enterRun (n : Nat) (rest : List Char) (hn : 1 ≤ n) (hb : n ≤ 2 ^ 31 - 1)
    (h : rest.head? ≠ some '\n') :
    cleanMarkdownGo false 0 (List.replicate n '\n' ++ rest)
      = List.replicate (min n 2) '\n' ++ cleanMarkdownGo false 0 rest := by
  obtain ⟨j, rfl⟩ : ∃ j, n = j + 1 := ⟨n - 1, by omega⟩
  rw [List.replicate_succ, List.cons_append]
  have hw1 : wrap32 1 = ((1 : Nat) : Int) := by
    have h2 : wrap32 1 = 1 := wrap32_eq_self 1 (by omega) (by omega)
    rw [h2]
    norm_num
  have h1 : cleanMarkdownGo false 0 ('\n' :: (List.replicate j '\n' ++ rest))
      = '\n' :: cleanMarkdownGo true ((1 : Nat) : Int) (List.replicate j '\n' ++ rest) := by
    simp [cleanMarkdownGo, hw1]
  rw [h1, cleanGo_run j 1 rest (by omega), cleanGo_reset _ rest h]
  have hk : min (j + 1) 2 = (min (1 + j) 2 - min 1 2) + 1 := by omega
  rw [hk, List.replicate_succ]
  simp

theorem takeWhile_nl_eq_replicate (cs : List Char) :
    cs.takeWhile (fun d => d = '\n')
      = List.replicate (cs.takeWhile (fun d => d = '\n')).length '\n' := by
  induction cs with
  | nil => rfl
  | cons c cs ih =>
    by_cases hc : c = '\n'
    · subst hc
      rw [List.takeWhile_cons_of_pos (by simp)]
      simp only [List.length_cons, List.replicate_succ]
      exact congrArg _ ih
    · rw [List.takeWhile_cons_of_neg (by simp [hc])]
      rfl

theorem head?_dropWhile_nl (cs : List Char) :
    (cs.dropWhile (fun d => d = '\n')).head? ≠ some '\n' := by
  have h := List.head?_dropWhile_not (fun d => decide (d = '\n')) cs
  intro hcontra
  rw [hcontra] at h
  simp at h

theorem collapseRuns_cons_nl (cs : List Char) :
    collapseRuns ('\n' :: cs)
      = List.replicate (min (1 + (cs.takeWhile (fun d => d = '\n')).length) 2) '\n'
        ++ collapseRuns (cs.dropWhile (fun d => d = '\n')) := by
  simp [collapseRuns]

theorem collapseRuns_cons_other (c : Char) (cs : List Char) (hc : ¬ c = '\n') :
    collapseRuns (c :: cs) = c :: collapseRuns cs := by
  simp [collapseRuns, hc]

theorem maxNlRun_cons_nl (cs : List Char) :
    maxNlRun ('\n' :: cs)
      = max (1 + (cs.takeWhile (fun d => d = '\n')).length)
          (maxNlRun (cs.dropWhile (fun d => d = '\n'))) := by
  simp [maxNlRun]

theorem maxNlRun_cons_other (c : Char) (cs : List Char) (hc : ¬ c = '\n') :
    maxNlRun (c :: cs) = maxNlRun cs := by
  simp [maxNlRun, hc]

theorem cleanGo_eq_collapseRuns (s : List Char) :
    maxNlRun s ≤ 2 ^ 31 - 1 → cleanMarkdownGo false 0 s = collapseRuns s := by
  induction s using collapseRuns.induct with
  | case1 => intro _; simp [cleanMarkdownGo, collapseRuns]
  | case2 cs ih =>
    intro hbound
    rw [maxNlRun_cons_nl] at hbound
    have hrun : 1 + (cs.takeWhile (fun d => d = '\n')).length ≤ 2 ^ 31 - 1 :=
      le_trans (le_max_left _ _) hbound
    have hrest : maxNlRun (cs.dropWhile (fun d => d = '\n')) ≤ 2 ^ 31 - 1 :=
      le_trans (le_max_right _ _) hbound
    have ht := takeWhile_nl_eq_replicate cs
    have hd := head?_dropWhile_nl cs
    have hsplit : ('\n' :: cs)
        = List.replicate ((cs.takeWhile (fun d => d = '\n')).length + 1) '\n'
          ++ cs.dropWhile (fun d => d = '\n') := by
      rw [List.replicate_succ, List.cons_append]
      congr 1
      conv_lhs => rw [← List.takeWhile_append_dropWhile (fun d => decide (d = '\n')) cs]
      rw [← ht]
    rw [collapseRuns_cons_nl, hsplit,
      cleanGo_enterRun _ _ (by omega) (by omega) hd, ih hrest]
    have hmins : min ((cs.takeWhile (fun d => d = '\n')).length + 1) 2
        = min (1 + (cs.takeWhile (fun d => d = '\n')).length) 2 := by omega
    rw [hmins]
  | case3 c cs hc ih =>
    intro hbound
    rw [maxNlRun_cons_other c cs hc] at hbound
    rw [collapseRuns_cons_other c cs hc]
    simpa [cleanMarkdownGo, hc] using ih hbound

theorem clean_markdown_eq_collapseRuns (s : List Char) (hbound : maxNlRun s ≤ 2 ^ 31 - 1) :
    clean_markdown s = collapseRuns s :=
  cleanGo_eq_collapseRuns s hbound

theorem takeWhile_dropWhile_replicate (k : Nat) (rest : List Char) (h : rest.head? ≠ some '\n') :
    (List.replicate k '\n' ++ rest).takeWhile (fun d => d = '\n') = List.replicate k '\n'
    ∧ (List.replicate k '\n' ++ rest).dropWhile (fun d => d = '\n') = rest := by
  induction k with
  | zero =>
    simp only [List.replicate_zero, List.nil_append]
    cases rest with
    | nil => exact ⟨rfl, rfl⟩
    | cons c cs =>
      have hc : ¬ c = '\n' := by simpa using h
      constructor
      · rw [List.takeWhile_cons_of_neg (by simp [hc])]
      · rw [List.dropWhile_cons_of_neg (by simp [hc])]
  | succ k ih =>
    rw [List.replicate_succ, List.cons_append]
    constructor
    · rw [List.takeWhile_cons_of_pos (by simp), ih.1, ← List.replicate_succ]
    · rw [List.dropWhile_cons_of_pos (by simp), ih.2]

theorem collapseRuns_run (m : Nat) (rest : List Char) (hm : 1 ≤ m) (h : rest.head? ≠ some '\n') :
    collapseRuns (List.replicate m '\n' ++ rest)
      = List.replicate (min m 2) '\n' ++ collapseRuns rest := by
  obtain ⟨j, rfl⟩ : ∃ j, m = j + 1 := ⟨m - 1, by omega⟩
  rw [List.replicate_succ, List.cons_append, collapseRuns_cons_nl,
    (takeWhile_dropWhile_replicate j rest h).1, (takeWhile_dropWhile_replicate j rest h).2]
  have hmins : min (1 + (List.replicate j '\n').length) 2 = min (j + 1) 2 := by
    simp only [List.length_replicate]
    omega
  rw [hmins]

theorem head?_collapseRuns (rest : List Char) (h : rest.head? ≠ some '\n') :
    (collapseRuns rest).head? ≠ some '\n' := by
  cases rest with
  | nil => simp [collapseRuns]
  | cons c cs =>
    have hc : ¬ c = '\n' := by simpa using h
    rw [collapseRuns_cons_other c cs hc]
    simpa using hc

theorem collapseRuns_idem (s : List Char) : collapseRuns (collapseRuns s) = collapseRuns s := by
  induction s using collapseRuns.induct with
  | case1 => simp [collapseRuns]
  | case2 cs ih =>
    rw [collapseRuns_cons_nl]
    have hd := head?_dropWhile_nl cs
    have hcd := head?_collapseRuns _ hd
    rw [collapseRuns_run _ _ (by omega) hcd, ih]
    have hmins : min (min (1 + (cs.takeWhile (fun d => d = '\n')).length) 2) 2
        = min (1 + (cs.takeWhile (fun d => d = '\n')).length) 2 := by omega
    rw [hmins]
  | case3 c cs hc ih =>
    rw [collapseRuns_cons_other c cs hc, collapseRuns_cons_other c _ hc, ih]

theorem filter_replicate_nl (m : Nat) :
    (List.replicate m '\n').filter (fun c => c != '\n') = [] := by
  induction m with
  | zero => rfl
  | succ m ih =>
    rw [List.replicate_succ]
    simp [ih]

theorem collapseRuns_filter (s : List Char) :
    (collapseRuns s).filter (fun c => c != '\n') = s.filter (fun c => c != '\n') := by
  induction s using collapseRuns.induct with
  | case1 => simp [collapseRuns]
  | case2 cs ih =>
    rw [collapseRuns_cons_nl, List.filter_append, filter_replicate_nl, List.nil_append, ih]
    have h1 : ('\n' :: cs).filter (fun c => c != '\n') = cs.filter (fun c => c != '\n') := by
      simp
    rw [h1]
    conv_rhs => rw [← List.takeWhile_append_dropWhile (fun d => decide (d = '\n')) cs]
    rw [List.filter_append, takeWhile_nl_eq_replicate cs, filter_replicate_nl, List.nil_append]
  | case3 c cs hc ih =>
    rw [collapseRuns_cons_other c cs hc]
    simp only [List.filter_cons]
    rw [ih]

theorem noTripleNl_tail (c : Char) (l : List Char) (h : noTripleNl (c :: l) = true) :
    noTripleNl l = true := by
  match l with
  | [] => rfl
  | [c2] => rfl
  | c2 :: c3 :: rest =>
    simp only [noTripleNl] at h
    split at h
    · exact absurd h (by simp)
    · exact h

theorem noTripleNl_suffix (x y : List Char) (h : noTripleNl (x ++ y) = true) :
    noTripleNl y = true := by
  induction x with
  | nil => exact h
  | cons c cs ih =>
    rw [List.cons_append] at h
    exact ih (noTripleNl_tail _ _ h)

theorem noTripleNl_run_le (cs : List Char) (h : noTripleNl ('\n' :: cs) = true) :
    (cs.takeWhile (fun d => d = '\n')).length ≤ 1 := by
  by_contra hlen
  have hsplit : cs = cs.takeWhile (fun d => d = '\n') ++ cs.dropWhile (fun d => d = '\n') :=
    (List.takeWhile_append_dropWhile _ _).symm
  have ht := takeWhile_nl_eq_replicate cs
  obtain ⟨k, hk⟩ : ∃ k, (cs.takeWhile (fun d => d = '\n')).length = k + 2 :=
    ⟨(cs.takeWhile (fun d => d = '\n')).length - 2, by omega⟩
  rw [ht, hk, List.replicate_succ, List.replicate_succ] at hsplit
  rw [hsplit] at h
  simp [noTripleNl, List.cons_append] at h

theorem collapseRuns_of_noTriple (s : List Char) (h : noTripleNl s = true) :
    collapseRuns s = s := by
  induction s using collapseRuns.induct with
  | case1 => simp [collapseRuns]
  | case2 cs ih =>
    rw [collapseRuns_cons_nl]
    have hle := noTripleNl_run_le cs h
    have ht := takeWhile_nl_eq_replicate cs
    have hmins : min (1 + (cs.takeWhile (fun d => d = '\n')).length) 2
        = 1 + (cs.takeWhile (fun d => d = '\n')).length := by omega
    have hd : noTripleNl (cs.dropWhile (fun d => d = '\n')) = true := by
      apply noTripleNl_suffix ('\n' :: cs.takeWhile (fun d => d = '\n'))
      rw [List.cons_append, List.takeWhile_append_dropWhile]
      exact h
    rw [hmins, ih hd]
    conv_rhs => rw [show ('\n' :: cs) = '\n' :: cs from rfl,
      ← List.takeWhile_append_dropWhile (fun d => decide (d = '\n')) cs]
    rw [← List.cons_append]
    congr 1
    conv_lhs => rw [Nat.add_comm 1 _, List.replicate_succ]
    congr 1
    exact ht.symm
  | case3 c cs hc ih =>
    rw [collapseRuns_cons_other c cs hc, ih (noTripleNl_tail c cs h)]

theorem maxNlRun_le_length (s : List Char) : maxNlRun s ≤ s.length := by
  induction s using collapseRuns.induct with
  | case1 => simp [maxNlRun]
  | case2 cs ih =>
    rw [maxNlRun_cons_nl]
    have h1 : (cs.takeWhile (fun d => d = '\n')).length ≤ cs.length :=
      List.Sublist.length_le (List.takeWhile_sublist _)
    have h2 : (cs.dropWhile (fun d => d = '\n')).length ≤ cs.length :=
      List.Sublist.length_le (List.dropWhile_sublist _)
    simp only [List.length_cons]
    omega
  | case3 c cs hc ih =>
    rw [maxNlRun_cons_other c cs hc]
    simp only [List.length_cons]
    omega

theorem maxNlRun_run (m : Nat) (rest : List Char) (hm : 1 ≤ m) (h : rest.head? ≠ some '\n') :
    maxNlRun (List.replicate m '\n' ++ rest) = max m (maxNlRun rest) := by
  obtain ⟨j, rfl⟩ : ∃ j, m = j + 1 := ⟨m - 1, by omega⟩
  rw [List.replicate_succ, List.cons_append, maxNlRun_cons_nl,
    (takeWhile_dropWhile_replicate j rest h).1, (takeWhile_dropWhile_replicate j rest h).2]
  simp only [List.length_replicate]
  have harg : 1 + j = j + 1 := by omega
  rw [harg]

theorem maxNlRun_collapseRuns_le (s : List Char) : maxNlRun (collapseRuns s) ≤ 2 := by
  induction s using collapseRuns.induct with
  | case1 => simp [collapseRuns, maxNlRun]
  | case2 cs ih =>
    rw [collapseRuns_cons_nl]
    have hd := head?_dropWhile_nl cs
    have hcd := head?_collapseRuns _ hd
    rw [maxNlRun_run _ _ (by omega) hcd]
    omega
  | case3 c cs hc ih =>
    rw [collapseRuns_cons_other c cs hc, maxNlRun_cons_other c _ hc]
    exact ih

theorem clean_markdown_wrap_value :
    clean_markdown (List.replicate (2 ^ 31) '\n') = List.replicate 3 '\n' := by
  have hsplit : List.replicate (2 ^ 31) '\n'
      = '\n' :: (List.replicate (2 ^ 31 - 2) '\n' ++ ['\n']) := by
    have h1 : (2 : Nat) ^ 31 = ((2 ^ 31 - 2) + 1) + 1 := by norm_num
    conv_lhs => rw [h1]
    rw [List.replicate_succ, List.replicate_succ']
  rw [hsplit]
  unfold clean_markdown
  have hstep1 : ∀ t : List Char, cleanMarkdownGo false 0 ('\n' :: t)
      = (if wrap32 (0 + 1) ≤ 2 then ['\n'] else [])
        ++ cleanMarkdownGo true (wrap32 (0 + 1)) t := fun t => rfl
  rw [hstep1]
  have hw0 : wrap32 (0 + 1) = ((1 : Nat) : Int) := by
    have h01 : (0 : Int) + 1 = 1 := by norm_num
    rw [h01, wrap32_eq_self 1 (by omega) (by omega)]
    norm_num
  rw [hw0, if_pos (by omega : ((1 : Nat) : Int) ≤ 2),
    cleanGo_run (2 ^ 31 - 2) 1 ['\n'] (by omega)]
  have hmin : min (1 + (2 ^ 31 - 2)) 2 - min 1 2 = 1 := by omega
  rw [hmin]
  have hcast : ((1 + (2 ^ 31 - 2) : Nat) : Int) = 2 ^ 31 - 1 := by omega
  rw [hcast]
  have hstep2 : cleanMarkdownGo true ((2 : Int) ^ 31 - 1) ['\n']
      = (if wrap32 ((2 : Int) ^ 31 - 1 + 1) ≤ 2 then ['\n'] else [])
        ++ cleanMarkdownGo true (wrap32 ((2 : Int) ^ 31 - 1 + 1)) [] := rfl
  rw [hstep2]
  have harg : (2 : Int) ^ 31 - 1 + 1 = 2 ^ 31 := by ring
  rw [harg]
  have hw2 : wrap32 ((2 : Int) ^ 31) = -(2 ^ 31) := by
    unfold wrap32
    have hsum : (2 : Int) ^ 31 + 2 ^ 31 = 2 ^ 32 := by ring
    rw [hsum, Int.emod_self]
    ring
  rw [hw2, if_pos (by omega : -((2 : Int) ^ 31) ≤ 2)]
  rfl

/-- Claim C1, amended for the 32-bit counter: for every input string in
which each maximal run of consecutive newlines is shorter than 2 to the
31st, so that the i32 newline counter of the source never overflows,
clean_markdown collapses every run of 3 or more consecutive newlines to
exactly 2 newlines, passes runs of 1 or 2 newlines through unchanged,
and preserves all non-newline characters verbatim and in order.
Formally: under the bound, clean_markdown agrees with the
specification-side collapseRuns, preserves the subsequence of
non-newline characters exactly, and returns unchanged any input with no
run of 3 or more newlines.  Without the bound the claim fails: see the
counterexample, where the wrapping counter re-enables emission. -/
theorem clean_markdown_collapse_law (s : List Char) (hbound : maxNlRun s ≤ 2 ^ 31 - 1) :
    clean_markdown s = collapseRuns s
    ∧ (clean_markdown s).filter (fun c => c != '\n') = s.filter (fun c => c != '\n')
    ∧ (noTripleNl s = true → clean_markdown s = s) := by
  refine ⟨clean_markdown_eq_collapseRuns s hbound, ?_, ?_⟩
  · rw [clean_markdown_eq_collapseRuns s hbound]
    exact collapseRuns_filter s
  · intro h
    rw [clean_markdown_eq_collapseRuns s hbound]
    exact collapseRuns_of_noTriple s h

/-- Counterexample to C1 as stated: on an input that is a single run of
2 to the 31st newlines the claim demands exactly two newlines out, but
the wrapped counter re-enables emission at the overflow step and
clean_markdown returns three newlines. -/
theorem clean_markdown_collapse_law_counterexample :
    clean_markdown (List.replicate (2 ^ 31) '\n') = List.replicate 3 '\n'
    ∧ List.replicate 3 '\n' ≠ List.replicate 2 '\n' :=
  ⟨clean_markdown_wrap_value, by decide⟩

/-- Witness for C1: the run bound and the third conjunct discharged at a
concrete string with runs of one and two newlines only, which
clean_markdown leaves unchanged. -/
theorem clean_markdown_collapse_law_witness :
    maxNlRun "a\n\nb\nc".toList ≤ 2 ^ 31 - 1
    ∧ noTripleNl "a\n\nb\nc".toList = true
    ∧ clean_markdown "a\n\nb\nc".toList = "a\n\nb\nc".toList :=
  ⟨Nat.le_trans (maxNlRun_le_length _) (by decide),
   by decide,
   (clean_markdown_collapse_law "a\n\nb\nc".toList
     (Nat.le_trans (maxNlRun_le_length _) (by decide))).2.2 (by decide)⟩

/-- Claim C2, amended for the 32-bit counter: the whitespace normalizer
is idempotent on every input whose maximal newline runs are shorter
than 2 to the 31st.  Without the bound idempotence fails: a run of 2 to
the 31st newlines yields a three-newline output run that a second pass
collapses to two, as the counterexample shows. -/
theorem clean_markdown_idempotent (s : List Char) (hbound : maxNlRun s ≤ 2 ^ 31 - 1) :
    clean_markdown (clean_markdown s) = clean_markdown s := by
  have h1 := clean_markdown_eq_collapseRuns s hbound
  have h2 := clean_markdown_eq_collapseRuns (collapseRuns s)
    (le_trans (maxNlRun_collapseRuns_le s) (by norm_num))
  rw [h1, h2]
  exact collapseRuns_idem s

/-- Counterexample to C2 as stated: at a single run of 2 to the 31st
newlines the first pass returns three newlines and a second pass
collapses them to two, so applying clean_markdown twice differs from
applying it once. -/
theorem clean_markdown_idempotent_counterexample :
    clean_markdown (clean_markdown (List.replicate (2 ^ 31) '\n'))
      ≠ clean_markdown (List.replicate (2 ^ 31) '\n') := by
  rw [clean_markdown_wrap_value]
  decide

/-- Witness for C2: idempotence applied at a concrete string containing
a four-newline run, far below the overflow bound. -/
theorem clean_markdown_idempotent_witness :
    maxNlRun "a\n\n\n\nb".toList ≤ 2 ^ 31 - 1
    ∧ clean_markdown (clean_markdown "a\n\n\n\nb".toList)
        = clean_markdown "a\n\n\n\nb".toList :=
  ⟨Nat.le_trans (maxNlRun_le_length _) (by decide),
   clean_markdown_idempotent "a\n\n\n\nb".toList
     (Nat.le_trans (maxNlRun_le_length _) (by decide))⟩

mutual

theorem extract_text_eq_renderSpec (n : Node) (output : List Char) :
    extract_text_from_node n output = output ++ renderSpec n := by
  cases n with
  | text t => simp [extract_text_from_node, renderSpec]
  | element tag i cs =>
    by_cases hskip : tag = "script" ∨ tag = "style"
    · simp [extract_text_from_node, renderSpec, hskip]
    · by_cases hblock : tag ∈ block_elements
      · have hc := extractChildren_eq_renderSpecChildren cs (output ++ ['\n'])
        simp [extract_text_from_node, renderSpec, hskip, hblock, hc]
      · have hc := extractChildren_eq_renderSpecChildren cs output
        simp [extract_text_from_node, renderSpec, hskip, hblock, hc]
  | comment s => simp [extract_text_from_node, renderSpec]
  | doctype => simp [extract_text_from_node, renderSpec]
  | procInstr => simp [extract_text_from_node, renderSpec]
  | document cs => simp [extract_text_from_node, renderSpec]
  | fragment cs => simp [extract_text_from_node, renderSpec]

theorem extractChildren_eq_renderSpecChildren (ns : List Node) (output : List Char) :
    extractTextFromChildren ns output = output ++ renderSpecChildren ns := by
  cases ns with
  | nil => simp [extractTextFromChildren, renderSpecChildren]
  | cons n ns =>
    have h1 := extract_text_eq_renderSpec n output
    have h2 := extractChildren_eq_renderSpecChildren ns (extract_text_from_node n output)
    rw [h1] at h2
    simp [extractTextFromChildren, renderSpecChildren, h1, h2]

end

mutual

theorem renderSpec_pruneSkip (n : Node) : renderSpec (pruneSkip n) = renderSpec n := by
  cases n with
  | text t => simp [pruneSkip, renderSpec]
  | element tag i cs =>
    by_cases hskip : tag = "script" ∨ tag = "style"
    · simp [pruneSkip, renderSpec, hskip]
    · have hc := renderSpecChildren_pruneSkip cs
      simp [pruneSkip, renderSpec, hskip, hc]
  | comment s => simp [pruneSkip, renderSpec]
  | doctype => simp [pruneSkip, renderSpec]
  | procInstr => simp [pruneSkip, renderSpec]
  | document cs => simp [pruneSkip, renderSpec]
  | fragment cs => simp [pruneSkip, renderSpec]

theorem renderSpecChildren_pruneSkip (ns : List Node) :
    renderSpecChildren (pruneSkipChildren ns) = renderSpecChildren ns := by
  cases ns with
  | nil => simp [pruneSkipChildren, renderSpecChildren]
  | cons n ns =>
    have h1 := renderSpec_pruneSkip n
    have h2 := renderSpecChildren_pruneSkip ns
    simp [pruneSkipChildren, renderSpecChildren, h1, h2]

end

/-- Claim C4: the tree-walk renderer extract_text_from_node equals the
recursive reference definition renderSpec, which appends, for a text
node, the literal text followed by exactly one newline; for a block
element, one newline, the children's renderings in document order, and
one trailing newline; and for an element outside the block and skip
sets, only the children's renderings with no added characters. -/
theorem extract_text_from_node_spec (n : Node) (output : List Char) :
    extract_text_from_node n output = output ++ renderSpec n :=
  extract_text_eq_renderSpec n output

/-- Claim C5: text nested anywhere inside a script or style element, at
any depth, never appears in the renderer's output: rendering is
invariant under erasing the entire contents of every skip-set element,
and a skip-set element itself emits nothing. -/
theorem extract_text_skip_enforcement (n : Node) (i : Option String) (cs : List Node)
    (output : List Char) :
    extract_text_from_node (pruneSkip n) output = extract_text_from_node n output
    ∧ extract_text_from_node (.element "script" i cs) output = output
    ∧ extract_text_from_node (.element "style" i cs) output = output := by
  refine ⟨?_, ?_, ?_⟩
  · rw [extract_text_eq_renderSpec, extract_text_eq_renderSpec, renderSpec_pruneSkip]
  · simp [extract_text_from_node]
  · simp [extract_text_from_node]

/-- Claim C9: a node that is neither a text node nor an element node
(comment, doctype, processing instruction, document, fragment) appends
nothing to the output, and its subtree is not visited, so it
contributes zero characters. -/
theorem other_nodes_contribute_nothing (s : List Char) (cs : List Node) (output : List Char) :
    extract_text_from_node (.comment s) output = output
    ∧ extract_text_from_node .doctype output = output
    ∧ extract_text_from_node .procInstr output = output
    ∧ extract_text_from_node (.document cs) output = output
    ∧ extract_text_from_node (.fragment cs) output = output := by
  refine ⟨?_, ?_, ?_, ?_, ?_⟩ <;> simp [extract_text_from_node]

mutual

theorem selectFirst_eq_preorder (n : Node) :
    selectFirst n = ((preorder n).filter isMainContent).head? := by
  cases n with
  | text t => simp [selectFirst, preorder, isMainContent]
  | element tag i cs =>
    by_cases hm : isMainContent (.element tag i cs)
    · simp [selectFirst, preorder, List.filter_cons, hm]
    · have hc := selectFirstChildren_eq_preorder cs
      simp [selectFirst, preorder, List.filter_cons, hm, hc]
  | comment s => simp [selectFirst, preorder, isMainContent]
  | doctype => simp [selectFirst, preorder, isMainContent]
  | procInstr => simp [selectFirst, preorder, isMainContent]
  | document cs =>
    have hc := selectFirstChildren_eq_preorder cs
    simp [selectFirst, preorder, List.filter_cons, isMainContent, hc]
  | fragment cs =>
    have hc := selectFirstChildren_eq_preorder cs
    simp [selectFirst, preorder, List.filter_cons, isMainContent, hc]

theorem selectFirstChildren_eq_preorder (ns : List Node) :
    selectFirstChildren ns = ((preorderChildren ns).filter isMainContent).head? := by
  cases ns with
  | nil => simp [selectFirstChildren, preorderChildren]
  | cons n ns =>
    have h1 := selectFirst_eq_preorder n
    have h2 := selectFirstChildren_eq_preorder ns
    simp only [selectFirstChildren, preorderChildren, List.filter_append, List.head?_append]
    rw [h1, h2]
    cases hsel : ((preorder n).filter isMainContent).head? with
    | none => simp
    | some r => simp

end

/-- Claim C3: process_html_content fails with the error message
Could not find main content section exactly when the parsed document
contains zero nodes matching the id main-content; when one or more
matching nodes exist, it proceeds with the first such node in document
order, converting that node's children. -/
theorem process_html_content_main_content (d : Node) :
    (process_html_content d = Except.error "Could not find main content section"
      ↔ (preorder d).filter isMainContent = [])
    ∧ ∀ m, ((preorder d).filter isMainContent).head? = some m →
        process_html_content d
          = html_to_text (.element "html" none
              [.element "head" none [],
               .element "body" none (removeScriptNodes (childNodes m))]) := by
  have hs := selectFirst_eq_preorder d
  cases hsel : selectFirst d with
  | none =>
    rw [hsel] at hs
    have hnil : (preorder d).filter isMainContent = [] :=
      List.head?_eq_none_iff.mp hs.symm
    refine ⟨⟨fun _ => hnil, fun _ => ?_⟩, fun m hm => ?_⟩
    · simp [process_html_content, hsel]
    · rw [hnil] at hm
      simp at hm
  | some r =>
    rw [hsel] at hs
    refine ⟨⟨fun herr => ?_, fun hnil => ?_⟩, fun m hm => ?_⟩
    · exfalso
      simp [process_html_content, hsel, html_to_text] at herr
    · rw [hnil] at hs
      simp at hs
    · have hmr : m = r := by
        rw [← hs] at hm
        exact (Option.some.inj hm).symm
      subst hmr
      simp [process_html_content, hsel]

/-- Witness for C3: on the scenario document the first and only match
of the selector is the div with id main-content, and
process_html_content proceeds with that node's children. -/
theorem process_html_content_main_content_witness :
    ((preorder exampleDoc).filter isMainContent).head?
      = some (Node.element "div" (some "main-content")
          [.element "h1" none [.text "Title".toList],
           .element "p" none [.text "Hello".toList]])
    ∧ process_html_content exampleDoc
      = html_to_text (.element "html" none
          [.element "head" none [],
           .element "body" none
             (removeScriptNodes (childNodes
               (Node.element "div" (some "main-content")
                 [.element "h1" none [.text "Title".toList],
                  .element "p" none [.text "Hello".toList]])))]) :=
  ⟨rfl, (process_html_content_main_content exampleDoc).2 _ rfl⟩

theorem splitNl_ne_nil (s : List Char) : splitNl s ≠ [] := by
  cases s with
  | nil => simp [splitNl]
  | cons c cs =>
    by_cases hc : c = '\n'
    · simp [splitNl, hc]
    · simp only [splitNl, if_neg hc]
      cases h : splitNl cs <;> simp

theorem splitNl_cons_nl (cs : List Char) : splitNl ('\n' :: cs) = [] :: splitNl cs := by
  simp [splitNl]

theorem splitNl_cons_other (c : Char) (cs : List Char) (p : List Char) (ps : List (List Char))
    (hc : ¬ c = '\n') (h : splitNl cs = p :: ps) : splitNl (c :: cs) = (c :: p) :: ps := by
  simp only [splitNl, if_neg hc, h]

theorem mem_splitNl_no_nl (s : List Char) : ∀ l ∈ splitNl s, '\n' ∉ l := by
  induction s with
  | nil =>
    intro l hl
    simp only [splitNl, List.mem_singleton] at hl
    subst hl
    simp
  | cons c cs ih =>
    intro l hl
    by_cases hc : c = '\n'
    · subst hc
      rw [splitNl_cons_nl] at hl
      rcases List.mem_cons.mp hl with h1 | h2
      · subst h1; simp
      · exact ih l h2
    · obtain ⟨p, ps, hps⟩ : ∃ p ps, splitNl cs = p :: ps := by
        cases h : splitNl cs with
        | nil => exact absurd h (splitNl_ne_nil cs)
        | cons p ps => exact ⟨p, ps, rfl⟩
      rw [splitNl_cons_other c cs p ps hc hps] at hl
      rcases List.mem_cons.mp hl with h1 | h2
      · subst h1
        intro hmem
        rcases List.mem_cons.mp hmem with he | hm
        · exact hc he.symm
        · exact ih p (by rw [hps]; simp) hm
      · exact ih l (by rw [hps]; simp [h2])

theorem splitNl_no_nl (l : List Char) (h : '\n' ∉ l) : splitNl l = [l] := by
  induction l with
  | nil => rfl
  | cons c cs ih =>
    have hc : ¬ c = '\n' := fun e => h (by simp [e])
    have hcs : '\n' ∉ cs := fun m => h (by simp [m])
    exact splitNl_cons_other c cs cs [] hc (ih hcs)

theorem splitNl_append : ∀ (l cs p : List Char) (ps : List (List Char)),
    '\n' ∉ l → splitNl cs = p :: ps → splitNl (l ++ cs) = (l ++ p) :: ps := by
  intro l
  induction l with
  | nil =>
    intro cs p ps _ h
    simpa using h
  | cons a l' ih =>
    intro cs p ps hnl h
    have ha : ¬ a = '\n' := fun e => hnl (by simp [e])
    have hl' : '\n' ∉ l' := fun m => hnl (by simp [m])
    rw [List.cons_append, splitNl_cons_other a (l' ++ cs) (l' ++ p) ps ha (ih cs p ps hl' h)]
    simp

theorem joinLines_cons₂ (l l2 : List Char) (ls2 : List (List Char)) :
    joinLines (l :: l2 :: ls2) = l ++ '\n' :: joinLines (l2 :: ls2) := rfl

theorem splitNl_joinLines : ∀ (ls : List (List Char)),
    ls ≠ [] → (∀ l ∈ ls, '\n' ∉ l) → splitNl (joinLines ls) = ls := by
  intro ls
  induction ls with
  | nil => intro h _; exact absurd rfl h
  | cons l ls ih =>
    intro _ hnl
    cases ls with
    | nil =>
      have h1 := splitNl_no_nl l (hnl l (by simp))
      simpa [joinLines] using h1
    | cons l2 ls2 =>
      have hrest : splitNl ('\n' :: joinLines (l2 :: ls2)) = [] :: (l2 :: ls2) := by
        rw [splitNl_cons_nl, ih (by simp) (fun x hx => hnl x (by simp [hx]))]
      rw [joinLines_cons₂, splitNl_append l _ [] (l2 :: ls2) (hnl l (by simp)) hrest]
      simp

theorem dropTrailingCr_of_not_cr (l : List Char) (h : l.getLast? ≠ some '\r') :
    dropTrailingCr l = l := by
  simp [dropTrailingCr, h]

theorem mem_dropTrailingCr (x : Char) (l : List Char) (hx : x ∈ dropTrailingCr l) : x ∈ l := by
  unfold dropTrailingCr at hx
  split at hx
  · exact (List.dropLast_sublist l).subset hx
  · exact hx

theorem mapDropCrButLast_id : ∀ (ls : List (List Char)),
    (∀ l ∈ ls, l.getLast? ≠ some '\r') → mapDropCrButLast ls = ls := by
  intro ls
  induction ls with
  | nil => intro _; rfl
  | cons l ls ih =>
    intro h
    cases ls with
    | nil => rfl
    | cons l2 ls2 =>
      have h1 : mapDropCrButLast (l :: l2 :: ls2)
          = dropTrailingCr l :: mapDropCrButLast (l2 :: ls2) := rfl
      rw [h1, dropTrailingCr_of_not_cr l (h l (by simp)),
        ih (fun x hx => h x (by simp [hx]))]

theorem mem_mapDropCrButLast : ∀ (ls : List (List Char)) (x : List Char),
    x ∈ mapDropCrButLast ls → ∃ p ∈ ls, x = p ∨ x = dropTrailingCr p := by
  intro ls
  induction ls with
  | nil => intro x hx; simp [mapDropCrButLast] at hx
  | cons l ls ih =>
    intro x hx
    cases ls with
    | nil =>
      have h1 : mapDropCrButLast [l] = [l] := rfl
      rw [h1] at hx
      simp only [List.mem_singleton] at hx
      exact ⟨l, by simp, Or.inl hx⟩
    | cons l2 ls2 =>
      have h1 : mapDropCrButLast (l :: l2 :: ls2)
          = dropTrailingCr l :: mapDropCrButLast (l2 :: ls2) := rfl
      rw [h1] at hx
      rcases List.mem_cons.mp hx with h2 | h2
      · exact ⟨l, by simp, Or.inr h2⟩
      · obtain ⟨p, hp, hor⟩ := ih x h2
        exact ⟨p, by simp [hp], hor⟩

theorem rustLines_joinLines (ls : List (List Char))
    (hne : ∀ l ∈ ls, l ≠ []) (hnl : ∀ l ∈ ls, '\n' ∉ l)
    (hcr : ∀ l ∈ ls, l.getLast? ≠ some '\r') :
    rustLines (joinLines ls) = ls := by
  cases ls with
  | nil => rfl
  | cons l ls' =>
    have hsp : splitNl (joinLines (l :: ls')) = l :: ls' :=
      splitNl_joinLines (l :: ls') (by simp) hnl
    have hcond : ¬ ((l :: ls').getLast? = some ([] : List Char)) := by
      intro h
      exact hne [] (List.mem_of_getLast?_eq_some h) rfl
    simp only [rustLines, hsp, if_neg hcond]
    exact mapDropCrButLast_id (l :: ls') hcr

theorem mem_rustLines_no_nl (s : List Char) (l : List Char) (hl : l ∈ rustLines s) :
    '\n' ∉ l := by
  by_cases hc : (splitNl s).getLast? = some ([] : List Char)
  · simp only [rustLines, if_pos hc] at hl
    obtain ⟨p, hp, rfl⟩ := List.mem_map.mp hl
    have hps : p ∈ splitNl s := (List.dropLast_sublist _).subset hp
    intro hx
    exact mem_splitNl_no_nl s p hps (mem_dropTrailingCr _ p hx)
  · simp only [rustLines, if_neg hc] at hl
    obtain ⟨p, hp, hor⟩ := mem_mapDropCrButLast (splitNl s) l hl
    rcases hor with h3 | h3
    · intro hx
      exact mem_splitNl_no_nl s p hp (h3 ▸ hx)
    · intro hx
      exact mem_splitNl_no_nl s p hp (mem_dropTrailingCr _ p (h3 ▸ hx))

theorem mem_rustTrim (x : Char) (l : List Char) (hx : x ∈ rustTrim l) : x ∈ l := by
  unfold rustTrim trimEnd trimStart at hx
  rw [List.mem_reverse] at hx
  have h1 := (List.dropWhile_sublist rustIsWhitespace).subset hx
  rw [List.mem_reverse] at h1
  exact (List.dropWhile_sublist rustIsWhitespace).subset h1

theorem rustTrim_no_nl (l : List Char) (h : '\n' ∉ l) : '\n' ∉ rustTrim l :=
  fun hx => h (mem_rustTrim _ l hx)

theorem rustTrim_last_not_ws (l : List Char) (h : rustTrim l ≠ []) :
    ∃ c, (rustTrim l).getLast? = some c ∧ rustIsWhitespace c = false := by
  have hz : rustTrim l = ((trimStart l).reverse.dropWhile rustIsWhitespace).reverse := rfl
  have hzz : (trimStart l).reverse.dropWhile rustIsWhitespace ≠ [] := by
    intro he
    rw [hz, he] at h
    exact h rfl
  have hh := List.head?_dropWhile_not rustIsWhitespace (trimStart l).reverse
  cases hhd : ((trimStart l).reverse.dropWhile rustIsWhitespace).head? with
  | none => exact absurd (List.head?_eq_none_iff.mp hhd) hzz
  | some c =>
    rw [hhd] at hh
    refine ⟨c, ?_, hh⟩
    rw [hz, List.getLast?_reverse]
    exact hhd

theorem rustTrim_last_not_cr (l : List Char) (h : rustTrim l ≠ []) :
    (rustTrim l).getLast? ≠ some '\r' := by
  obtain ⟨c, hc, hws⟩ := rustTrim_last_not_ws l h
  rw [hc]
  intro he
  have : c = '\r' := Option.some.inj he
  subst this
  simp [rustIsWhitespace, rustWhitespaceCodes] at hws

theorem noDoubleNl_append : ∀ (l s : List Char), '\n' ∉ l →
    noDoubleNl (l ++ s) = noDoubleNl s := by
  intro l
  induction l with
  | nil => intro s _; rfl
  | cons a l ih =>
    intro s h
    have ha : ¬ a = '\n' := fun e => h (by simp [e])
    have h' : '\n' ∉ l := fun m => h (by simp [m])
    rw [List.cons_append, ← ih s h']
    cases hls : l ++ s with
    | nil => rfl
    | cons c2 rest => simp [noDoubleNl, ha]

theorem noDoubleNl_of_no_nl (l : List Char) (h : '\n' ∉ l) : noDoubleNl l = true := by
  have h1 := noDoubleNl_append l [] h
  simpa using h1

theorem joinLines_cons_head (a : Char) (l2 : List Char) (ls2 : List (List Char)) :
    ∃ t, joinLines ((a :: l2) :: ls2) = a :: t := by
  cases ls2 with
  | nil => exact ⟨l2, rfl⟩
  | cons x xs => exact ⟨l2 ++ '\n' :: joinLines (x :: xs), rfl⟩

theorem noDoubleNl_joinLines : ∀ (ls : List (List Char)),
    (∀ l ∈ ls, l ≠ []) → (∀ l ∈ ls, '\n' ∉ l) → noDoubleNl (joinLines ls) = true := by
  intro ls
  induction ls with
  | nil => intro _ _; rfl
  | cons l ls ih =>
    intro hne hnl
    cases ls with
    | nil => exact noDoubleNl_of_no_nl l (hnl l (by simp))
    | cons l2 ls2 =>
      have hl : '\n' ∉ l := hnl l (by simp)
      rw [joinLines_cons₂, noDoubleNl_append l _ hl]
      obtain ⟨a, l2', rfl⟩ : ∃ a t, l2 = a :: t := by
        cases l2 with
        | nil => exact absurd rfl (hne [] (by simp))
        | cons a t => exact ⟨a, t, rfl⟩
      have ha : ¬ a = '\n' := by
        intro e
        exact hnl (a :: l2') (by simp) (by simp [e])
      obtain ⟨t, ht⟩ := joinLines_cons_head a l2' ls2
      rw [ht]
      have hstep : noDoubleNl ('\n' :: a :: t) = noDoubleNl (a :: t) := by
        simp [noDoubleNl, ha]
      rw [hstep, ← ht]
      exact ih (fun x hx => hne x (by simp [hx])) (fun x hx => hnl x (by simp [hx]))

theorem cleanup_mem_facts (raw : List Char) (l : List Char)
    (hl : l ∈ ((rustLines raw).map rustTrim).filter (fun x => !x.isEmpty)) :
    l ≠ [] ∧ '\n' ∉ l ∧ l.getLast? ≠ some '\r' := by
  have h1 := List.mem_filter.mp hl
  obtain ⟨p, hp, rfl⟩ := List.mem_map.mp h1.1
  have hne : rustTrim p ≠ [] := by
    have h2 := h1.2
    simp only [Bool.not_eq_eq_eq_not, Bool.not_true, List.isEmpty_eq_false] at h2
    exact h2
  refine ⟨hne, ?_, rustTrim_last_not_cr p hne⟩
  exact rustTrim_no_nl p (mem_rustLines_no_nl raw p hp)

theorem cleanup_noDoubleNl (raw : List Char) : noDoubleNl (cleanupLines raw) = true := by
  apply noDoubleNl_joinLines
  · intro l hl
    exact (cleanup_mem_facts raw l hl).1
  · intro l hl
    exact (cleanup_mem_facts raw l hl).2.1

theorem cleanup_rustLines (raw : List Char) :
    rustLines (cleanupLines raw)
      = ((rustLines raw).map rustTrim).filter (fun x => !x.isEmpty) := by
  apply rustLines_joinLines
  · intro l hl
    exact (cleanup_mem_facts raw l hl).1
  · intro l hl
    exact (cleanup_mem_facts raw l hl).2.1
  · intro l hl
    exact (cleanup_mem_facts raw l hl).2.2

theorem cleanup_mem_nonws (raw : List Char) (l : List Char)
    (hl : l ∈ ((rustLines raw).map rustTrim).filter (fun x => !x.isEmpty)) :
    l.any (fun c => !rustIsWhitespace c) = true := by
  have h1 := List.mem_filter.mp hl
  obtain ⟨p, hp, rfl⟩ := List.mem_map.mp h1.1
  have hne : rustTrim p ≠ [] := by
    have h2 := h1.2
    simp only [Bool.not_eq_eq_eq_not, Bool.not_true, List.isEmpty_eq_false] at h2
    exact h2
  obtain ⟨c, hc, hws⟩ := rustTrim_last_not_ws p hne
  have hmem : c ∈ rustTrim p := List.mem_of_getLast?_eq_some hc
  rw [List.any_eq_true]
  exact ⟨c, hmem, by simp [hws]⟩

/-- Claim C6: in html_to_text the raw tree-walk output is post-processed
by splitting on line boundaries, trimming leading and trailing
whitespace from every line, discarding lines that become empty, and
rejoining the remaining lines with single newlines; consequently, for
every input, the output contains no empty or whitespace-only lines and
no run of two or more consecutive newlines. -/
theorem html_to_text_line_cleanup (root : Node) :
    html_to_text root = Except.ok (cleanupLines (extract_text_from_node root []))
    ∧ noDoubleNl (cleanupLines (extract_text_from_node root [])) = true
    ∧ ∀ l ∈ rustLines (cleanupLines (extract_text_from_node root [])),
        l ≠ [] ∧ l.any (fun c => !rustIsWhitespace c) = true := by
  refine ⟨rfl, cleanup_noDoubleNl _, ?_⟩
  intro l hl
  rw [cleanup_rustLines] at hl
  exact ⟨(cleanup_mem_facts _ l hl).1, cleanup_mem_nonws _ l hl⟩

/-- Witness for C6: the line facts applied to a concrete paragraph
node, whose cleaned output is the single line hi. -/
theorem html_to_text_line_cleanup_witness :
    "hi".toList ∈ rustLines (cleanupLines
        (extract_text_from_node (Node.element "p" none [Node.text "hi".toList]) []))
    ∧ ("hi".toList ≠ [] ∧ ("hi".toList).any (fun c => !rustIsWhitespace c) = true) :=
  ⟨by decide,
   (html_to_text_line_cleanup (Node.element "p" none [Node.text "hi".toList])).2.2
     "hi".toList (by decide)⟩

/-- Claim C7: rendering and normalization are total and never fail:
html_to_text returns a success value on every input tree (its error
branch is unreachable), and absence of renderable content yields the
empty string rather than an error.  The normalizer clean_markdown is a
total function by construction in this development, which witnesses the
totality half of the claim concerning it. -/
theorem rendering_total (root : Node) :
    (html_to_text root).isOk = true
    ∧ (renderSpec root = [] → html_to_text root = Except.ok []) := by
  constructor
  · rfl
  · intro h
    have he : extract_text_from_node root [] = [] := by
      rw [extract_text_eq_renderSpec, h]
      rfl
    have hok : html_to_text root
        = Except.ok (cleanupLines (extract_text_from_node root [])) := rfl
    rw [hok, he]
    rfl

/-- Witness for C7: a childless inline element renders to nothing and
html_to_text returns the empty string on it. -/
theorem rendering_total_witness :
    renderSpec (Node.element "span" none []) = []
    ∧ html_to_text (Node.element "span" none []) = Except.ok [] :=
  ⟨rfl, (rendering_total (Node.element "span" none [])).2 rfl⟩

/-- Claim C8: on the markup div with id main-content containing an h1
Title and a p Hello, the composed extract, render and normalize
pipeline succeeds, its output consists of the lines Title and Hello in
that order separated by a single newline (hence at most two), and the
output contains no HTML tags because it contains no left angle bracket
at all. -/
theorem pipeline_scenario_one :
    render_pipeline exampleDoc = Except.ok "Title\nHello".toList
    ∧ rustLines "Title\nHello".toList = ["Title".toList, "Hello".toList]
    ∧ noDoubleNl "Title\nHello".toList = true
    ∧ ("Title\nHello".toList).contains '<' = false :=
  ⟨rfl, rfl, rfl, rfl⟩

/-- Claim C10: Config.new always produces a configuration with the
given crate name, no item path and online false; with_item_path changes
only the item path field and with_online changes only the online field,
leaving every other field unchanged. -/
theorem config_builder_frame (name : String) (c : Config) (path : String) (b : Bool) :
    (Config.new name).crate_name = name
    ∧ (Config.new name).item_path = none
    ∧ (Config.new name).online = false
    ∧ (c.with_item_path path).item_path = some path
    ∧ (c.with_item_path path).crate_name = c.crate_name
    ∧ (c.with_item_path path).online = c.online
    ∧ (c.with_online b).online = b
    ∧ (c.with_online b).crate_name = c.crate_name
    ∧ (c.with_online b).item_path = c.item_path :=
  ⟨rfl, rfl, rfl, rfl, rfl, rfl, rfl, rfl, rfl⟩
